import Mathlib

/-!
Verification of the Sentinel-2 processing script `sentinel_processing.py`.

The script's numeric core works on 2-D numpy arrays of reflectance values.
We embed a band as a list of rows of rationals (exact arithmetic standing in
for floating point), and translate the script's functions:

* `normalize`       — line 102-103: `(band - np.min(band)) / (np.max(band) - np.min(band) + 1e-10)`
* `rgb_composition` — line 105-109: `np.stack([normalize(B4), normalize(B3), normalize(B2)], axis=-1)`
* `ndvi_index`      — line 107 (commented out): `(b8 - b4) / (b8 + b4 + 1e-10)`
* `simulate_band`   — line 116-123: `resize` to `(H*factor, W*factor)` then optional `unsharp_mask`
* `extract_bands`   — line 100-101: `{band: data[i] for i, band in enumerate(band_names)}`
* `run_method`      — line 131-135: simulate every required band, failing on a missing key
* `render_panel`    — line 151-167: the comparison figure with `plt.subplots(1, 2)`
-/

namespace Sentinel

/-- A band: a 2-D numeric grid, one list per row. -/
abbrev Band : Type := List (List ℚ)

/-- The epsilon constant `1e-10` used by the script. -/
def eps : ℚ := 1 / 10000000000

/-- All values of a band, flattened row-major (as numpy reductions see them). -/
def bandVals (b : Band) : List ℚ := b.flatten

/-- Minimum of a list of rationals (`np.min`); 0 on the empty list,
which numpy rejects — all uses are guarded by nonemptiness. -/
def listMin : List ℚ → ℚ
  | [] => 0
  | x :: xs => xs.foldl min x

/-- Maximum of a list of rationals (`np.max`); 0 on the empty list. -/
def listMax : List ℚ → ℚ
  | [] => 0
  | x :: xs => xs.foldl max x

/-- Embeds `np.min(band)`. -/
def bandMin (b : Band) : ℚ := listMin (bandVals b)

/-- Embeds `np.max(band)`. -/
def bandMax (b : Band) : ℚ := listMax (bandVals b)

/-- Line 102-103 of the script:
`(band - np.min(band)) / (np.max(band) - np.min(band) + 1e-10)`,
applied element-wise with numpy broadcasting. -/
def normalize (band : Band) : Band :=
  band.map (fun row => row.map
    (fun x => (x - bandMin band) / (bandMax band - bandMin band + eps)))

/-- A band has shape `(H, W)`: `H` rows, every row of width `W`. -/
def shapeOk (b : Band) (H W : ℕ) : Prop :=
  b.length = H ∧ ∀ row ∈ b, row.length = W

/-- A constant band: all values equal (equivalently `np.max = np.min`). -/
def bandConstant (b : Band) : Prop := ∀ x ∈ bandVals b, x = bandMin b

instance : DecidablePred bandConstant := fun b =>
  List.decidableBAll _ (bandVals b)

instance (b : Band) (H W : ℕ) : Decidable (shapeOk b H W) := by
  unfold shapeOk; infer_instance

-- basic facts about listMin / listMax

theorem foldl_min_le_self (x : ℚ) (xs : List ℚ) : xs.foldl min x ≤ x := by
  induction xs generalizing x with
  | nil => simp
  | cons y ys ih => exact le_trans (ih (min x y)) (min_le_left x y)

theorem foldl_min_le_mem (x : ℚ) (xs : List ℚ) :
    ∀ y ∈ xs, xs.foldl min x ≤ y := by
  induction xs generalizing x with
  | nil => simp
  | cons z zs ih =>
    intro y hy
    rcases List.mem_cons.mp hy with h | h
    · subst h
      exact le_trans (foldl_min_le_self (min x y) zs) (min_le_right x y)
    · exact ih (min x z) y h

theorem self_le_foldl_max (x : ℚ) (xs : List ℚ) : x ≤ xs.foldl max x := by
  induction xs generalizing x with
  | nil => simp
  | cons y ys ih => exact le_trans (le_max_left x y) (ih (max x y))

theorem mem_le_foldl_max (x : ℚ) (xs : List ℚ) :
    ∀ y ∈ xs, y ≤ xs.foldl max x := by
  induction xs generalizing x with
  | nil => simp
  | cons z zs ih =>
    intro y hy
    rcases List.mem_cons.mp hy with h | h
    · subst h
      exact le_trans (le_max_right x y) (self_le_foldl_max (max x y) zs)
    · exact ih (max x z) y h

theorem listMin_le (l : List ℚ) (x : ℚ) (hx : x ∈ l) : listMin l ≤ x := by
  cases l with
  | nil => cases hx
  | cons y ys =>
    rcases List.mem_cons.mp hx with h | h
    · subst h; exact foldl_min_le_self x ys
    · exact foldl_min_le_mem y ys x h

theorem le_listMax (l : List ℚ) (x : ℚ) (hx : x ∈ l) : x ≤ listMax l := by
  cases l with
  | nil => cases hx
  | cons y ys =>
    rcases List.mem_cons.mp hx with h | h
    · subst h; exact self_le_foldl_max x ys
    · exact mem_le_foldl_max y ys x h

theorem foldl_min_mem (x : ℚ) (xs : List ℚ) :
    xs.foldl min x = x ∨ xs.foldl min x ∈ xs := by
  induction xs generalizing x with
  | nil => left; rfl
  | cons y ys ih =>
    rcases ih (min x y) with h | h
    · rcases min_cases x y with ⟨he, _⟩ | ⟨he, _⟩
      · left; rw [List.foldl_cons, h, he]
      · right; rw [List.foldl_cons, h, he]; exact List.mem_cons_self y ys
    · right; exact List.mem_cons_of_mem y h

theorem foldl_max_mem (x : ℚ) (xs : List ℚ) :
    xs.foldl max x = x ∨ xs.foldl max x ∈ xs := by
  induction xs generalizing x with
  | nil => left; rfl
  | cons y ys ih =>
    rcases ih (max x y) with h | h
    · rcases max_cases x y with ⟨he, _⟩ | ⟨he, _⟩
      · left; rw [List.foldl_cons, h, he]
      · right; rw [List.foldl_cons, h, he]; exact List.mem_cons_self y ys
    · right; exact List.mem_cons_of_mem y h

theorem listMin_mem (l : List ℚ) (hne : l ≠ []) : listMin l ∈ l := by
  cases l with
  | nil => exact absurd rfl hne
  | cons y ys =>
    rcases foldl_min_mem y ys with h | h
    · rw [listMin, h]; exact List.mem_cons_self y ys
    · exact List.mem_cons_of_mem y h

theorem listMax_mem (l : List ℚ) (hne : l ≠ []) : listMax l ∈ l := by
  cases l with
  | nil => exact absurd rfl hne
  | cons y ys =>
    rcases foldl_max_mem y ys with h | h
    · rw [listMax, h]; exact List.mem_cons_self y ys
    · exact List.mem_cons_of_mem y h

theorem bandMin_le (b : Band) (x : ℚ) (hx : x ∈ bandVals b) : bandMin b ≤ x :=
  listMin_le _ x hx

theorem le_bandMax (b : Band) (x : ℚ) (hx : x ∈ bandVals b) : x ≤ bandMax b :=
  le_listMax _ x hx

theorem eps_pos : (0:ℚ) < eps := by norm_num [eps]

/-- Values of `normalize b` are exactly the images of values of `b`. -/
theorem bandVals_normalize (b : Band) :
    bandVals (normalize b) =
      (bandVals b).map
        (fun x => (x - bandMin b) / (bandMax b - bandMin b + eps)) := by
  simp [bandVals, normalize, List.map_flatten]

/-- Every value of a normalized band lies in `[0, 1]` (in fact `[0, 1)`). -/
theorem normalize_mem_unit (b : Band) :
    ∀ x ∈ bandVals (normalize b), 0 ≤ x ∧ x ≤ 1 := by
  intro x hx
  rw [bandVals_normalize] at hx
  rcases List.mem_map.mp hx with ⟨y, hy, rfl⟩
  have hmin : bandMin b ≤ y := bandMin_le b y hy
  have hmax : y ≤ bandMax b := le_bandMax b y hy
  have hd : 0 < bandMax b - bandMin b + eps := by
    have : bandMin b ≤ bandMax b := le_trans hmin hmax
    have := eps_pos
    linarith
  have hep := eps_pos
  constructor
  · exact div_nonneg (by linarith) (le_of_lt hd)
  · rw [div_le_one hd]; linarith

/-- Access entry `(i, j)` of a band, with default `0` out of range. -/
def getQ (b : Band) (i j : ℕ) : ℚ := (((b[i]?).getD [])[j]?).getD 0

theorem foldl_min_map (f : ℚ → ℚ) (hf : ∀ a c, f (min a c) = min (f a) (f c))
    (x : ℚ) (xs : List ℚ) :
    (xs.map f).foldl min (f x) = f (xs.foldl min x) := by
  induction xs generalizing x with
  | nil => rfl
  | cons y ys ih => simp only [List.map_cons, List.foldl_cons, ← hf, ih]

theorem foldl_max_map (f : ℚ → ℚ) (hf : ∀ a c, f (max a c) = max (f a) (f c))
    (x : ℚ) (xs : List ℚ) :
    (xs.map f).foldl max (f x) = f (xs.foldl max x) := by
  induction xs generalizing x with
  | nil => rfl
  | cons y ys ih => simp only [List.map_cons, List.foldl_cons, ← hf, ih]

theorem listMin_map (f : ℚ → ℚ) (hmono : ∀ a c, a ≤ c → f a ≤ f c)
    (l : List ℚ) (hne : l ≠ []) : listMin (l.map f) = f (listMin l) := by
  have hf : ∀ a c, f (min a c) = min (f a) (f c) := by
    intro a c
    rcases le_total a c with h | h
    · rw [min_eq_left h, min_eq_left (hmono a c h)]
    · rw [min_eq_right h, min_eq_right (hmono c a h)]
  cases l with
  | nil => exact absurd rfl hne
  | cons y ys => exact foldl_min_map f hf y ys

theorem listMax_map (f : ℚ → ℚ) (hmono : ∀ a c, a ≤ c → f a ≤ f c)
    (l : List ℚ) (hne : l ≠ []) : listMax (l.map f) = f (listMax l) := by
  have hf : ∀ a c, f (max a c) = max (f a) (f c) := by
    intro a c
    rcases le_total a c with h | h
    · rw [max_eq_right h, max_eq_right (hmono a c h)]
    · rw [max_eq_left h, max_eq_left (hmono c a h)]
  cases l with
  | nil => exact absurd rfl hne
  | cons y ys => exact foldl_max_map f hf y ys

theorem bandVals_ne_nil (b : Band) (H W : ℕ) (hs : shapeOk b H W)
    (hH : 0 < H) (hW : 0 < W) : bandVals b ≠ [] := by
  obtain ⟨hlen, hrows⟩ := hs
  cases b with
  | nil => simp at hlen; omega
  | cons r rs =>
    have hr : r.length = W := hrows r (List.mem_cons_self r rs)
    cases r with
    | nil => simp at hr; omega
    | cons x xs =>
      intro hcontra
      have : x ∈ bandVals ((x :: xs) :: rs) := by
        simp [bandVals]
      rw [hcontra] at this
      cases this

theorem getQ_normalize (b : Band) (i j : ℕ)
    (hi : i < b.length) (hj : j < (b.getD i []).length) :
    getQ (normalize b) i j =
      (getQ b i j - bandMin b) / (bandMax b - bandMin b + eps) := by
  have hj' : j < (b[i]).length := by
    rwa [List.getD_eq_getElem b [] hi] at hj
  simp [getQ, normalize, List.getElem?_map, List.getElem?_eq_getElem hi,
    List.getElem?_eq_getElem hj']

/-- The non-constant case: the band's dynamic range is positive. -/
theorem range_pos_of_not_const (b : Band) (hne : bandVals b ≠ [])
    (hnc : ¬ bandConstant b) : bandMin b < bandMax b := by
  rw [bandConstant] at hnc
  push_neg at hnc
  obtain ⟨x, hx, hxne⟩ := hnc
  have h1 : bandMin b ≤ x := bandMin_le b x hx
  have h2 : x ≤ bandMax b := le_bandMax b x hx
  rcases lt_or_eq_of_le h1 with h | h
  · exact lt_of_lt_of_le h h2
  · exact absurd h.symm hxne

/-- C1: `normalize(band)` equals `(band - min) / (max - min + ε)` element-wise
with `ε = 1e-10`; all output values lie in `[0, 1]`; for a non-constant band
the output minimum is exactly 0 and the output maximum is
`(max-min)/(max-min+ε)`, within `ε/(max-min)` of 1 and strictly below 1;
for a constant band the output is uniformly 0. -/
theorem normalize_spec (b : Band) (H W : ℕ) (hs : shapeOk b H W)
    (hH : 0 < H) (hW : 0 < W) :
    (∀ i j, i < b.length → j < (b.getD i []).length →
        getQ (normalize b) i j =
          (getQ b i j - bandMin b) / (bandMax b - bandMin b + eps))
    ∧ (∀ x ∈ bandVals (normalize b), 0 ≤ x ∧ x ≤ 1)
    ∧ (¬ bandConstant b →
        bandMin (normalize b) = 0 ∧
        bandMax (normalize b) =
          (bandMax b - bandMin b) / (bandMax b - bandMin b + eps) ∧
        1 - eps / (bandMax b - bandMin b) ≤ bandMax (normalize b) ∧
        bandMax (normalize b) < 1)
    ∧ (bandConstant b → ∀ x ∈ bandVals (normalize b), x = 0) := by
  have hvne : bandVals b ≠ [] := bandVals_ne_nil b H W hs hH hW
  have hmm : bandMin b ≤ bandMax b := le_bandMax b _ (listMin_mem _ hvne)
  have hd : 0 < bandMax b - bandMin b + eps := by
    have := eps_pos; linarith
  set f : ℚ → ℚ := fun x => (x - bandMin b) / (bandMax b - bandMin b + eps) with hf
  have hmono : ∀ a c, a ≤ c → f a ≤ f c := by
    intro a c h
    apply div_le_div_of_nonneg_right _ hd.le
    · linarith
  refine ⟨fun i j hi hj => getQ_normalize b i j hi hj, normalize_mem_unit b, ?_, ?_⟩
  · intro hnc
    have hrange : bandMin b < bandMax b := range_pos_of_not_const b hvne hnc
    have hminval : bandMin (normalize b) = 0 := by
      rw [bandMin, bandVals_normalize, ← hf, listMin_map f hmono _ hvne]
      show (bandMin b - bandMin b) / _ = 0
      rw [sub_self, zero_div]
    have hmaxval : bandMax (normalize b) =
        (bandMax b - bandMin b) / (bandMax b - bandMin b + eps) := by
      rw [bandMax, bandVals_normalize, ← hf, listMax_map f hmono _ hvne]
      rfl
    refine ⟨hminval, hmaxval, ?_, ?_⟩
    · rw [hmaxval]
      have hD : (0:ℚ) < bandMax b - bandMin b := by linarith
      have heq : (bandMax b - bandMin b) / (bandMax b - bandMin b + eps)
          = 1 - eps / (bandMax b - bandMin b + eps) := by
        field_simp
      rw [heq]
      have : eps / (bandMax b - bandMin b + eps) ≤ eps / (bandMax b - bandMin b) := by
        apply div_le_div_of_nonneg_left (le_of_lt eps_pos) hD
        have := eps_pos; linarith
      linarith
    · rw [hmaxval, div_lt_one hd]
      have := eps_pos; linarith
  · intro hc x hx
    rw [bandVals_normalize] at hx
    rcases List.mem_map.mp hx with ⟨y, hy, rfl⟩
    rw [hc y hy, sub_self, zero_div]

/-- Concrete instantiation of `normalize_spec` on the 1×2 band `[[0, 1]]`. -/
theorem normalize_spec_witness :
    bandMin (normalize [[0, 1]]) = 0 ∧
    bandMax (normalize [[0, 1]]) = 1 / (1 + eps) ∧
    bandMax (normalize [[0, 1]]) < 1 := by
  have h := (normalize_spec [[0, 1]] 1 2 (by decide) (by decide)
    (by decide)).2.2.1 (by decide)
  refine ⟨h.1, ?_, h.2.2.2⟩
  have e1 : bandMax [[(0:ℚ), 1]] = 1 := by decide
  have e2 : bandMin [[(0:ℚ), 1]] = 0 := by decide
  rw [h.2.1, e1, e2]
  norm_num

/-! ### Channel stacking (`np.stack([...], axis=-1)`) and the rgb composition -/

/-- One row of `np.stack([r, g, b], axis=-1)`: pixel `j` gets the
channel list `[r_j, g_j, b_j]`. -/
def zip3Rows : List ℚ → List ℚ → List ℚ → List (List ℚ)
  | x :: xs, y :: ys, z :: zs => [x, y, z] :: zip3Rows xs ys zs
  | _, _, _ => []

/-- Embeds `np.stack([r, g, b], axis=-1)` on three 2-D bands: output axis 0 and 1
follow the inputs, axis 2 holds the three channels in list order. -/
def stack3 : Band → Band → Band → List (List (List ℚ))
  | r :: rs, g :: gs, b :: bs => zip3Rows r g b :: stack3 rs gs bs
  | _, _, _ => []

/-- Line 106 of the script:
`np.stack([normalize(bands['B4']), normalize(bands['B3']), normalize(bands['B2'])], axis=-1)`. -/
def rgb_composition (b4 b3 b2 : Band) : List (List (List ℚ)) :=
  stack3 (normalize b4) (normalize b3) (normalize b2)

/-- A 3-D stack has shape `(H, W, C)`. -/
def shape3Ok (s : List (List (List ℚ))) (H W C : ℕ) : Prop :=
  s.length = H ∧ ∀ p ∈ s, p.length = W ∧ ∀ c ∈ p, c.length = C

instance (s : List (List (List ℚ))) (H W C : ℕ) : Decidable (shape3Ok s H W C) := by
  unfold shape3Ok; infer_instance

/-- Pixel `(i, j)` of a 3-D stack: its channel list. -/
def getCell (s : List (List (List ℚ))) (i j : ℕ) : List ℚ :=
  (s.getD i []).getD j []

theorem zip3Rows_length : ∀ (a b c : List ℚ),
    b.length = a.length → c.length = a.length →
    (zip3Rows a b c).length = a.length
  | [], [], [], _, _ => rfl
  | x :: xs, y :: ys, z :: zs, hb, hc => by
    simp only [zip3Rows, List.length_cons]
    simp only [List.length_cons, Nat.succ.injEq] at hb hc
    rw [zip3Rows_length xs ys zs hb hc]
  | [], y :: ys, _, hb, _ => by simp at hb
  | [], [], z :: zs, _, hc => by simp at hc
  | x :: xs, [], _, hb, _ => by simp at hb
  | x :: xs, y :: ys, [], _, hc => by simp at hc

theorem zip3Rows_getD : ∀ (a b c : List ℚ) (j : ℕ),
    j < a.length → j < b.length → j < c.length →
    (zip3Rows a b c).getD j [] = [a.getD j 0, b.getD j 0, c.getD j 0]
  | x :: xs, y :: ys, z :: zs, 0, _, _, _ => rfl
  | x :: xs, y :: ys, z :: zs, j + 1, ha, hb, hc => by
    simp only [zip3Rows, List.getD_cons_succ]
    exact zip3Rows_getD xs ys zs j (by simpa using ha) (by simpa using hb)
      (by simpa using hc)
  | [], _, _, j, ha, _, _ => absurd ha (by simp)
  | x :: xs, [], _, j, _, hb, _ => absurd hb (by simp)
  | x :: xs, y :: ys, [], j, _, _, hc => absurd hc (by simp)

theorem zip3Rows_mem : ∀ (a b c : List ℚ), ∀ cell ∈ zip3Rows a b c,
    ∃ x ∈ a, ∃ y ∈ b, ∃ z ∈ c, cell = [x, y, z]
  | x :: xs, y :: ys, z :: zs, cell, hmem => by
    rcases List.mem_cons.mp hmem with h | h
    · exact ⟨x, List.mem_cons_self _ _, y, List.mem_cons_self _ _,
        z, List.mem_cons_self _ _, h⟩
    · obtain ⟨x', hx, y', hy, z', hz, he⟩ := zip3Rows_mem xs ys zs cell h
      exact ⟨x', List.mem_cons_of_mem _ hx, y', List.mem_cons_of_mem _ hy,
        z', List.mem_cons_of_mem _ hz, he⟩
  | [], _, _, cell, hmem => absurd hmem (by simp [zip3Rows])
  | x :: xs, [], _, cell, hmem => absurd hmem (by simp [zip3Rows])
  | x :: xs, y :: ys, [], cell, hmem => absurd hmem (by simp [zip3Rows])

theorem stack3_length : ∀ (r g b : Band),
    g.length = r.length → b.length = r.length →
    (stack3 r g b).length = r.length
  | [], [], [], _, _ => rfl
  | x :: xs, y :: ys, z :: zs, hg, hb => by
    simp only [stack3, List.length_cons]
    simp only [List.length_cons, Nat.succ.injEq] at hg hb
    rw [stack3_length xs ys zs hg hb]
  | [], y :: ys, _, hg, _ => by simp at hg
  | [], [], z :: zs, _, hb => by simp at hb
  | x :: xs, [], _, hg, _ => by simp at hg
  | x :: xs, y :: ys, [], _, hb => by simp at hb

theorem stack3_getD : ∀ (r g b : Band) (i : ℕ),
    i < r.length → i < g.length → i < b.length →
    (stack3 r g b).getD i [] =
      zip3Rows (r.getD i []) (g.getD i []) (b.getD i [])
  | x :: xs, y :: ys, z :: zs, 0, _, _, _ => rfl
  | x :: xs, y :: ys, z :: zs, i + 1, hr, hg, hb => by
    simp only [stack3, List.getD_cons_succ]
    exact stack3_getD xs ys zs i (by simpa using hr) (by simpa using hg)
      (by simpa using hb)
  | [], _, _, i, hr, _, _ => absurd hr (by simp)
  | x :: xs, [], _, i, _, hg, _ => absurd hg (by simp)
  | x :: xs, y :: ys, [], i, _, _, hb => absurd hb (by simp)

theorem stack3_mem : ∀ (r g b : Band), ∀ p ∈ stack3 r g b,
    ∃ ra ∈ r, ∃ ga ∈ g, ∃ ba ∈ b, p = zip3Rows ra ga ba
  | x :: xs, y :: ys, z :: zs, p, hmem => by
    rcases List.mem_cons.mp hmem with h | h
    · exact ⟨x, List.mem_cons_self _ _, y, List.mem_cons_self _ _,
        z, List.mem_cons_self _ _, h⟩
    · obtain ⟨ra, hra, ga, hga, ba, hba, he⟩ := stack3_mem xs ys zs p h
      exact ⟨ra, List.mem_cons_of_mem _ hra, ga, List.mem_cons_of_mem _ hga,
        ba, List.mem_cons_of_mem _ hba, he⟩
  | [], _, _, p, hmem => absurd hmem (by simp [stack3])
  | x :: xs, [], _, p, hmem => absurd hmem (by simp [stack3])
  | x :: xs, y :: ys, [], p, hmem => absurd hmem (by simp [stack3])

/-- The function `normalize` preserves the shape of its input. -/
theorem normalize_shape (b : Band) (H W : ℕ) (hs : shapeOk b H W) :
    shapeOk (normalize b) H W := by
  obtain ⟨hlen, hrows⟩ := hs
  refine ⟨by simpa [normalize] using hlen, ?_⟩
  intro row hrow
  rcases List.mem_map.mp hrow with ⟨r, hr, rfl⟩
  simpa using hrows r hr

theorem shapeOk_getD_length (b : Band) (H W : ℕ) (hs : shapeOk b H W)
    (i : ℕ) (hi : i < H) : (b.getD i []).length = W := by
  obtain ⟨hlen, hrows⟩ := hs
  have hi' : i < b.length := by omega
  rw [List.getD_eq_getElem b [] hi']
  exact hrows _ (List.getElem_mem hi')

/-- C2: the rgb composition normalizes the three bands independently and
stacks them in order (B4 then B3 then B2, pixel `(i,j)` holding the channel
list in that order); the output has shape `(H, W, 3)` and all values lie
in `[0, 1]`. -/
theorem rgb_composition_spec (b4 b3 b2 : Band) (H W : ℕ)
    (h4 : shapeOk b4 H W) (h3 : shapeOk b3 H W) (h2 : shapeOk b2 H W) :
    shape3Ok (rgb_composition b4 b3 b2) H W 3
    ∧ (∀ i j, i < H → j < W →
        getCell (rgb_composition b4 b3 b2) i j =
          [getQ (normalize b4) i j, getQ (normalize b3) i j,
           getQ (normalize b2) i j])
    ∧ (∀ p ∈ rgb_composition b4 b3 b2, ∀ c ∈ p, ∀ v ∈ c, 0 ≤ v ∧ v ≤ 1) := by
  have n4 := normalize_shape b4 H W h4
  have n3 := normalize_shape b3 H W h3
  have n2 := normalize_shape b2 H W h2
  refine ⟨⟨?_, ?_⟩, ?_, ?_⟩
  · rw [rgb_composition, stack3_length _ _ _ (by rw [n3.1, n4.1]) (by rw [n2.1, n4.1]), n4.1]
  · intro p hp
    obtain ⟨ra, hra, ga, hga, ba, hba, rfl⟩ :=
      stack3_mem _ _ _ p hp
    have hraw : ra.length = W := n4.2 ra hra
    have hgaw : ga.length = W := n3.2 ga hga
    have hbaw : ba.length = W := n2.2 ba hba
    constructor
    · rw [zip3Rows_length ra ga ba (by omega) (by omega), hraw]
    · intro c hc
      obtain ⟨_, _, _, _, _, _, rfl⟩ := zip3Rows_mem _ _ _ c hc
      rfl
  · intro i j hi hj
    rw [rgb_composition, getCell,
      stack3_getD _ _ _ i (by rw [n4.1]; omega) (by rw [n3.1]; omega) (by rw [n2.1]; omega),
      zip3Rows_getD _ _ _ j (by rw [shapeOk_getD_length _ H W n4 i hi]; omega)
        (by rw [shapeOk_getD_length _ H W n3 i hi]; omega)
        (by rw [shapeOk_getD_length _ H W n2 i hi]; omega)]
    simp [getQ, List.getD, List.getElem?_eq_none_iff]
  · intro p hp c hc v hv
    obtain ⟨ra, hra, ga, hga, ba, hba, rfl⟩ := stack3_mem _ _ _ p hp
    obtain ⟨x, hx, y, hy, z, hz, rfl⟩ := zip3Rows_mem _ _ _ c hc
    have hxv : x ∈ bandVals (normalize b4) := List.mem_flatten.mpr ⟨ra, hra, hx⟩
    have hyv : y ∈ bandVals (normalize b3) := List.mem_flatten.mpr ⟨ga, hga, hy⟩
    have hzv : z ∈ bandVals (normalize b2) := List.mem_flatten.mpr ⟨ba, hba, hz⟩
    rcases List.mem_cons.mp hv with rfl | hv
    · exact normalize_mem_unit b4 v hxv
    rcases List.mem_cons.mp hv with rfl | hv
    · exact normalize_mem_unit b3 v hyv
    rcases List.mem_cons.mp hv with rfl | hv
    · exact normalize_mem_unit b2 v hzv
    · cases hv

/-- Concrete instantiation of `rgb_composition_spec` on 1×2 bands. -/
theorem rgb_composition_spec_witness :
    shape3Ok (rgb_composition [[0, 1]] [[2, 3]] [[4, 6]]) 1 2 3 :=
  (rgb_composition_spec [[0, 1]] [[2, 3]] [[4, 6]] 1 2
    (by decide) (by decide) (by decide)).1

/-! ### The index composition (line 107, commented out in the script) -/

/-- Line 107 of the script (commented out):
`(bands['B8'] - bands['B4']) / (bands['B8'] + bands['B4'] + 1e-10)`,
element-wise on two same-shaped bands. -/
def ndvi_index (b8 b4 : Band) : Band :=
  List.zipWith
    (fun ra rb => List.zipWith (fun x y => (x - y) / (x + y + eps)) ra rb)
    b8 b4

theorem mem_zipWith {α β γ : Type} (f : α → β → γ) :
    ∀ (as : List α) (bs : List β), ∀ x ∈ List.zipWith f as bs,
    ∃ a ∈ as, ∃ b ∈ bs, x = f a b
  | a :: as, b :: bs, x, hx => by
    rcases List.mem_cons.mp hx with h | h
    · exact ⟨a, List.mem_cons_self _ _, b, List.mem_cons_self _ _, h⟩
    · obtain ⟨a', ha, b', hb, he⟩ := mem_zipWith f as bs x h
      exact ⟨a', List.mem_cons_of_mem _ ha, b', List.mem_cons_of_mem _ hb, he⟩
  | [], _, x, hx => absurd hx (by simp)
  | a :: as, [], x, hx => absurd hx (by simp)

theorem zipWith_getD {α β γ : Type} (f : α → β → γ) (da : α) (db : β) (dc : γ) :
    ∀ (as : List α) (bs : List β) (i : ℕ), i < as.length → i < bs.length →
    (List.zipWith f as bs).getD i dc = f (as.getD i da) (bs.getD i db)
  | a :: as, b :: bs, 0, _, _ => rfl
  | a :: as, b :: bs, i + 1, ha, hb => by
    simp only [List.zipWith_cons_cons, List.getD_cons_succ]
    exact zipWith_getD f da db dc as bs i (by simpa using ha) (by simpa using hb)
  | [], _, i, ha, _ => absurd ha (by simp)
  | a :: as, [], i, _, hb => absurd hb (by simp)

/-- C5: the index composition computes `(a - b) / (a + b + ε)` element-wise
(no clamping), has the common shape `(H, W)`, and for non-negative inputs
every output value lies in `[-1, 1]`. -/
theorem ndvi_index_spec (a b : Band) (H W : ℕ)
    (ha : shapeOk a H W) (hb : shapeOk b H W)
    (hpa : ∀ x ∈ bandVals a, 0 ≤ x) (hpb : ∀ x ∈ bandVals b, 0 ≤ x) :
    shapeOk (ndvi_index a b) H W
    ∧ (∀ i j, i < H → j < W →
        getQ (ndvi_index a b) i j =
          (getQ a i j - getQ b i j) / (getQ a i j + getQ b i j + eps))
    ∧ ∀ v ∈ bandVals (ndvi_index a b), -1 ≤ v ∧ v ≤ 1 := by
  have hep := eps_pos
  refine ⟨⟨?_, ?_⟩, ?_, ?_⟩
  · rw [ndvi_index, List.length_zipWith, ha.1, hb.1, min_self]
  · intro row hrow
    obtain ⟨ra, hra, rb, hrb, rfl⟩ := mem_zipWith _ a b row hrow
    rw [List.length_zipWith, ha.2 ra hra, hb.2 rb hrb, min_self]
  · intro i j hi hj
    have hgd : ∀ (c : Band), shapeOk c H W → getQ c i j = (c.getD i []).getD j 0 := by
      intro c _
      simp [getQ, List.getD_eq_getElem?_getD]
    rw [hgd _ (by
      refine ⟨?_, ?_⟩
      · rw [ndvi_index, List.length_zipWith, ha.1, hb.1, min_self]
      · intro row hrow
        obtain ⟨ra, hra, rb, hrb, rfl⟩ := mem_zipWith _ a b row hrow
        rw [List.length_zipWith, ha.2 ra hra, hb.2 rb hrb, min_self]),
      hgd a ha, hgd b hb, ndvi_index,
      zipWith_getD _ [] [] [] a b i (by rw [ha.1]; omega) (by rw [hb.1]; omega),
      zipWith_getD _ 0 0 0 _ _ j
        (by rw [shapeOk_getD_length a H W ha i hi]; omega)
        (by rw [shapeOk_getD_length b H W hb i hi]; omega)]
  · intro v hv
    obtain ⟨row, hrow, hvrow⟩ := List.mem_flatten.mp hv
    obtain ⟨ra, hra, rb, hrb, rfl⟩ := mem_zipWith _ a b row hrow
    obtain ⟨x, hx, y, hy, rfl⟩ := mem_zipWith _ ra rb v hvrow
    have hxv : 0 ≤ x := hpa x (List.mem_flatten.mpr ⟨ra, hra, hx⟩)
    have hyv : 0 ≤ y := hpb y (List.mem_flatten.mpr ⟨rb, hrb, hy⟩)
    have hd : 0 < x + y + eps := by linarith
    constructor
    · rw [show (-1 : ℚ) = -1 * (x + y + eps) / (x + y + eps) by
        field_simp]
      apply div_le_div_of_nonneg_right _ hd.le
      linarith
    · rw [div_le_one hd]; linarith

/-- Concrete instantiation of `ndvi_index_spec` on 1×2 bands. -/
theorem ndvi_index_spec_witness :
    getQ (ndvi_index [[1, 2]] [[3, 1]]) 0 0 = (1 - 3) / (1 + 3 + eps) ∧
    shapeOk (ndvi_index [[1, 2]] [[3, 1]]) 1 2 := by
  have h := ndvi_index_spec [[1, 2]] [[3, 1]] 1 2
    (by decide) (by decide) (by decide) (by decide)
  refine ⟨?_, h.1⟩
  have := h.2.1 0 0 (by decide) (by decide)
  rw [this]
  norm_num [getQ]

/-! ### Resolution simulation (lines 116-123) -/

/-- Embeds `band.shape[1]`: width of a (well-shaped) band; 0 for an empty band. -/
def bandW (b : Band) : ℕ := (b.headD []).length

/-- Clamp an integer pixel index into `[0, n-1]` (edge handling of the
resampling filters). -/
def clampIdx (n : ℕ) (i : ℤ) : ℕ := (min (max i 0) ((n : ℤ) - 1)).toNat

/-- Pixel access with clamped ('nearest') edge handling. -/
def getClamped (b : Band) (i j : ℤ) : ℚ :=
  getQ b (clampIdx b.length i) (clampIdx (bandW b) j)

/-- One output sample of `skimage.transform.resize(band, (H', W'))`:
separable linear interpolation at pixel-centre coordinates — output pixel
`(i, j)` samples the input at `((i+1/2)·H/H' − 1/2, (j+1/2)·W/W' − 1/2)`
with edge clamping. For the pure upscaling the script performs
(`factor ≥ 1`), `anti_aliasing=True` contributes a Gaussian of sigma
`max(0, (s−1)/2) = 0` per axis, i.e. no pre-smoothing. -/
def sampleAt (b : Band) (H' W' : ℕ) (i j : ℕ) : ℚ :=
  let y : ℚ := ((i : ℚ) + 1/2) * ((b.length : ℚ) / (H' : ℚ)) - 1/2
  let x : ℚ := ((j : ℚ) + 1/2) * ((bandW b : ℚ) / (W' : ℚ)) - 1/2
  let i0 : ℤ := ⌊y⌋
  let j0 : ℤ := ⌊x⌋
  let t : ℚ := y - (i0 : ℚ)
  let u : ℚ := x - (j0 : ℚ)
  (1 - t) * ((1 - u) * getClamped b i0 j0 + u * getClamped b i0 (j0 + 1))
    + t * ((1 - u) * getClamped b (i0 + 1) j0 + u * getClamped b (i0 + 1) (j0 + 1))

/-- Model of `skimage.transform.resize(band, (H', W'), anti_aliasing=True)`. -/
def resize (b : Band) (H' W' : ℕ) : Band :=
  (List.range H').map fun i => (List.range W').map fun j => sampleAt b H' W' i j

/-- Offsets of the truncated blur kernel. -/
def offsets : List ℤ := [-2, -1, 0, 1, 2]

/-- Kernel weight at an offset. The true Gaussian of
`skimage.filters.gaussian(img, sigma=radius)` has irrational weights; this
rational binomial stand-in keeps the model exact — no claim below depends on
the particular weights, only on the blur-and-subtract structure. -/
def kw (d : ℤ) : ℚ :=
  if d = 0 then 6 else if d = 1 ∨ d = -1 then 4 else if d = 2 ∨ d = -2 then 1 else 0

/-- Model of the Gaussian blur inside `skimage.filters.unsharp_mask`:
a separable normalized kernel with clamped ('nearest') edges. -/
def gaussianBlur (b : Band) : Band :=
  (List.range b.length).map fun i =>
    (List.range (bandW b)).map fun j =>
      (offsets.map fun di =>
        kw di * (offsets.map fun dj =>
          kw dj * getClamped b ((i : ℤ) + di) ((j : ℤ) + dj)).sum).sum / 256

/-- Model of `skimage.filters.unsharp_mask(img, radius, amount)`:
`img + amount · (img − blurred)` element-wise (the `radius` argument selects
the blur kernel; our kernel models the script's fixed `radius=2`). -/
def unsharp_mask (img : Band) (radius : ℕ) (amount : ℚ) : Band :=
  (List.range img.length).map fun i =>
    (List.range (bandW img)).map fun j =>
      getQ img i j + amount * (getQ img i j - getQ (gaussianBlur img) i j)

/-- Lines 116-123 of the script:
```
def simulate_band(band_data, factor, sharpness=True):
    resized = resize(band_data, (band_data.shape[0] * factor,
                                 band_data.shape[1] * factor),
                     anti_aliasing=True)
    if sharpness:
        return filters.unsharp_mask(resized, radius=2, amount=1.5)
    return resized
```
-/
def simulate_band (band_data : Band) (factor : ℕ) (sharpness : Bool := true) : Band :=
  let resized := resize band_data (band_data.length * factor) (bandW band_data * factor)
  if sharpness then unsharp_mask resized 2 (3/2) else resized

theorem bandW_eq (b : Band) (H W : ℕ) (hs : shapeOk b H W) (hH : 0 < H) :
    bandW b = W := by
  obtain ⟨hlen, hrows⟩ := hs
  cases b with
  | nil => simp at hlen; omega
  | cons r rs => exact hrows r (List.mem_cons_self r rs)

theorem resize_shape (b : Band) (H' W' : ℕ) :
    shapeOk (resize b H' W') H' W' := by
  constructor
  · simp [resize]
  · intro row hrow
    rcases List.mem_map.mp hrow with ⟨idx, _, rfl⟩
    simp

theorem clampIdx_of_lt (n i : ℕ) (h : i < n) : clampIdx n (i : ℤ) = i := by
  unfold clampIdx
  omega

theorem getClamped_self (b : Band) (H W : ℕ) (hs : shapeOk b H W)
    (i j : ℕ) (hi : i < H) (hj : j < W) :
    getClamped b (i : ℤ) (j : ℤ) = getQ b i j := by
  have h1 : clampIdx b.length (i : ℤ) = i := clampIdx_of_lt _ _ (by rw [hs.1]; omega)
  have h2 : clampIdx (bandW b) (j : ℤ) = j :=
    clampIdx_of_lt _ _ (by rw [bandW_eq b H W hs (by omega)]; omega)
  rw [getClamped, h1, h2]

theorem sampleAt_self (b : Band) (H W : ℕ) (hs : shapeOk b H W)
    (i j : ℕ) (hi : i < H) (hj : j < W) :
    sampleAt b H W i j = getQ b i j := by
  have hH : ((H : ℚ)) ≠ 0 := Nat.cast_ne_zero.mpr (by omega)
  have hW : ((W : ℚ)) ≠ 0 := Nat.cast_ne_zero.mpr (by omega)
  have hy : ((i : ℚ) + 1/2) * ((b.length : ℚ) / (H : ℚ)) - 1/2 = (i : ℚ) := by
    rw [hs.1, div_self hH]; ring
  have hx : ((j : ℚ) + 1/2) * ((bandW b : ℚ) / (W : ℚ)) - 1/2 = (j : ℚ) := by
    rw [bandW_eq b H W hs (by omega), div_self hW]; ring
  simp only [sampleAt]
  rw [hy, hx, Int.floor_natCast, Int.floor_natCast]
  push_cast
  simp only [sub_self, mul_zero, zero_mul, add_zero, zero_add, mul_one,
    one_mul, sub_zero]
  exact getClamped_self b H W hs i j hi hj

theorem resize_self (b : Band) (H W : ℕ) (hs : shapeOk b H W) :
    resize b H W = b := by
  apply List.ext_getElem?
  intro i
  by_cases hi : i < H
  · have hib : i < b.length := by rw [hs.1]; omega
    have hrowlen : (b.getD i []).length = W := shapeOk_getD_length b H W hs i hi
    have hL : (resize b H W)[i]? =
        some ((List.range W).map fun j => sampleAt b H W i j) := by
      simp [resize, List.getElem?_map, List.getElem?_range, hi]
    rw [hL, List.getElem?_eq_getElem hib]
    congr 1
    rw [← List.getD_eq_getElem b [] hib]
    apply List.ext_getElem?
    intro j
    by_cases hj : j < W
    · have hjb : j < (b.getD i []).length := by omega
      have hR : ((List.range W).map fun j => sampleAt b H W i j)[j]? =
          some (sampleAt b H W i j) := by
        simp [List.getElem?_map, List.getElem?_range, hj]
      rw [hR, List.getElem?_eq_getElem hjb]
      congr 1
      rw [sampleAt_self b H W hs i j hi hj, getQ,
        ← List.getD_eq_getElem?_getD, ← List.getD_eq_getElem?_getD,
        List.getD_eq_getElem _ _ hjb]
    · have hlen1 : ((List.range W).map fun j => sampleAt b H W i j).length ≤ j := by
        simp; omega
      have hlen2 : (b.getD i []).length ≤ j := by omega
      rw [List.getElem?_eq_none hlen1, List.getElem?_eq_none hlen2]
  · have hlen1 : (resize b H W).length ≤ i := by
      rw [(resize_shape b H W).1]; omega
    have hlen2 : b.length ≤ i := by rw [hs.1]; omega
    rw [List.getElem?_eq_none hlen1, List.getElem?_eq_none hlen2]

/-- C3: with sharpening off, `simulate_band` maps a band of shape `(H, W)`
to a band of shape `(H·k, W·k)`. -/
theorem simulate_band_shape (b : Band) (H W k : ℕ) (hs : shapeOk b H W)
    (hk : 0 < k) :
    shapeOk (simulate_band b k false) (H * k) (W * k) := by
  show shapeOk (resize b (b.length * k) (bandW b * k)) (H * k) (W * k)
  rcases Nat.eq_zero_or_pos H with hH | hH
  · subst hH
    have hb : b = [] := List.length_eq_zero.mp (by rw [hs.1])
    subst hb
    constructor
    · simp [resize, bandW]
    · intro row hrow
      simp [resize, bandW] at hrow
  · rw [hs.1, bandW_eq b H W hs hH]
    exact resize_shape b (H * k) (W * k)

/-- Concrete instantiation of `simulate_band_shape`: a 1×2 band upscaled by
factor 2 has shape 2×4. -/
theorem simulate_band_shape_witness :
    shapeOk (simulate_band [[0, 1]] 2 false) 2 4 :=
  simulate_band_shape [[0, 1]] 1 2 2 (by decide) (by decide)

/-- C4: `simulate_band(band, factor=1, sharpen=false)` is the identity:
the output equals the input value-for-value (exactly, in the rational
model). -/
theorem simulate_band_identity (b : Band) (H W : ℕ) (hs : shapeOk b H W) :
    simulate_band b 1 false = b := by
  show resize b (b.length * 1) (bandW b * 1) = b
  rcases Nat.eq_zero_or_pos H with hH | hH
  · subst hH
    have hb : b = [] := List.length_eq_zero.mp (by rw [hs.1])
    subst hb
    simp [resize]
  · rw [Nat.mul_one, Nat.mul_one, hs.1, bandW_eq b H W hs hH]
    exact resize_self b H W hs

/-- Concrete instantiation of `simulate_band_identity` on a 2×2 band. -/
theorem simulate_band_identity_witness :
    simulate_band [[0, 1], [2, 3]] 1 false = [[0, 1], [2, 3]] :=
  simulate_band_identity [[0, 1], [2, 3]] 2 2 (by decide)

/-- C9: calling `simulate_band` without the `sharpness` argument defaults to
sharpening: the result is the unsharp-masking pass (radius 2, amount 1.5)
applied to the `sharpness=false` result — and it is not the identity at
`factor=1` (witnessed on the band `[[0, 1]]`), so the spec's identity
baseline requires passing `sharpen=false` explicitly. -/
theorem simulate_band_default_sharpens :
    (∀ (b : Band) (k : ℕ),
        simulate_band b k = unsharp_mask (simulate_band b k false) 2 (3/2))
    ∧ simulate_band [[0, 1]] 1 ≠ [[0, 1]] := by
  constructor
  · intro b k; rfl
  · have h1 : simulate_band [[(0:ℚ), 1]] 1 = unsharp_mask [[(0:ℚ), 1]] 2 (3/2) := by
      show unsharp_mask
        (resize [[(0:ℚ), 1]] ([[(0:ℚ), 1]].length * 1) (bandW [[(0:ℚ), 1]] * 1))
        2 (3/2) = _
      have e1 : ([[(0:ℚ), 1]] : Band).length * 1 = 1 := rfl
      have e2 : bandW [[(0:ℚ), 1]] * 1 = 2 := rfl
      rw [e1, e2, resize_self [[(0:ℚ), 1]] 1 2 (by decide)]
    have hval : getQ (unsharp_mask [[(0:ℚ), 1]] 2 (3/2)) 0 0 = -(15/32) := by
      simp only [unsharp_mask, gaussianBlur, offsets,
        show ([[(0:ℚ), 1]] : Band).length = 1 from rfl,
        show bandW [[(0:ℚ), 1]] = 2 from rfl,
        show List.range 1 = [0] from rfl,
        show List.range 2 = [0, 1] from rfl]
      norm_num [getQ, getClamped, clampIdx, bandW, kw]
    intro hcontra
    rw [h1] at hcontra
    have := congrArg (fun s => getQ s 0 0) hcontra
    simp only [hval] at this
    norm_num [getQ] at this

/-! ### Band extraction (lines 100-101) -/

/-- The loop of the dict comprehension
`{band: data[i] for i, band in enumerate(band_names)}`, carrying the running
index `i`: `data[i]` raises `IndexError` when `i ≥ len(data)`, modelled as
`none`; otherwise the `i`-th channel is bound to the `i`-th name. -/
def extract_go (data : List Band) : ℕ → List String → Option (List (String × Band))
  | _, [] => some []
  | i, name :: rest =>
    match data[i]? with
    | none => none
    | some channel =>
      (extract_go data (i + 1) rest).map fun tail => (name, channel) :: tail

/-- Lines 100-101 of the script:
`bands = {band: data[i] for i, band in enumerate(band_names)}`. -/
def extract_bands (data : List Band) (band_names : List String) :
    Option (List (String × Band)) :=
  extract_go data 0 band_names

theorem extract_go_some (data : List Band) :
    ∀ (names : List String) (i : ℕ), i + names.length ≤ data.length →
    extract_go data i names = some (names.zip ((data.drop i).take names.length))
  | [], i, _ => by simp [extract_go]
  | name :: rest, i, h => by
    have hi : i < data.length := by simp at h; omega
    have ih := extract_go_some data rest (i + 1) (by simp at h ⊢; omega)
    rw [extract_go, List.getElem?_eq_getElem hi, ih]
    simp only [Option.map_some]
    rw [List.drop_eq_getElem_cons hi]
    rfl

theorem extract_go_none (data : List Band) :
    ∀ (names : List String) (i : ℕ), names ≠ [] →
    data.length < i + names.length → extract_go data i names = none
  | [], _, hne, _ => absurd rfl hne
  | name :: rest, i, _, h => by
    rcases Nat.lt_or_ge i data.length with hi | hi
    · have hrne : rest ≠ [] := by
        intro hcontra
        subst hcontra
        simp at h
        omega
      rw [extract_go, List.getElem?_eq_getElem hi,
        extract_go_none data rest (i + 1) hrne (by simp at h ⊢; omega)]
      rfl
    · rw [extract_go, List.getElem?_eq_none hi]

/-- C6 counterexample: a decoded raster with 4 channels against a 3-code
band list does NOT fail — construction succeeds, binding the first three
channels in order and ignoring the surplus. -/
theorem extract_bands_counterexample :
    ([[[(0:ℚ)]], [[1]], [[2]], [[3]]] : List Band).length ≠
      (["B2", "B3", "B4"] : List String).length
    ∧ extract_bands [[[(0:ℚ)]], [[1]], [[2]], [[3]]] ["B2", "B3", "B4"]
        = some [("B2", [[0]]), ("B3", [[1]]), ("B4", [[2]])] := by
  exact ⟨by decide, rfl⟩

/-- C6 (amended): band-mapping construction fails exactly when the decoded
raster has FEWER channels than the expected band-code list (a plain
`IndexError`, not a dedicated FormatError); when the channel count is at
least the code count — including a strict surplus — it succeeds with one
band per expected code, in order. -/
theorem extract_bands_amended (data : List Band) (names : List String) :
    (extract_bands data names = none ↔ data.length < names.length)
    ∧ (names.length ≤ data.length →
        extract_bands data names = some (names.zip (data.take names.length))) := by
  have hsucc : names.length ≤ data.length →
      extract_bands data names = some (names.zip (data.take names.length)) := by
    intro h
    rw [extract_bands, extract_go_some data names 0 (by omega)]
    rfl
  refine ⟨⟨?_, ?_⟩, hsucc⟩
  · intro hnone
    by_contra hcontra
    rw [hsucc (by omega)] at hnone
    cases hnone
  · intro hlt
    have hne : names ≠ [] := by
      intro hcontra
      subst hcontra
      simp at hlt
    exact extract_go_none data names 0 hne (by omega)

/-- Concrete instantiation of `extract_bands_amended`: 2 channels against
3 expected codes fail; 3 channels against 3 codes succeed in order. -/
theorem extract_bands_amended_witness :
    extract_bands [[[(0:ℚ)]], [[1]]] ["B2", "B3", "B4"] = none
    ∧ extract_bands [[[(0:ℚ)]], [[1]], [[2]]] ["B2", "B3", "B4"]
        = some [("B2", [[0]]), ("B3", [[1]]), ("B4", [[2]])] := by
  constructor
  · exact (extract_bands_amended [[[(0:ℚ)]], [[1]]] ["B2", "B3", "B4"]).1.mpr
      (by decide)
  · rw [(extract_bands_amended [[[(0:ℚ)]], [[1]], [[2]]]
      ["B2", "B3", "B4"]).2 (by decide)]
    rfl

/-- C10: whenever the decoded raster has at least as many channels as the
expected band-code list, extraction never fails: the `i`-th channel is bound
to the `i`-th code and surplus channels are silently ignored (the result
only depends on the first `len(band_names)` channels). -/
theorem extract_bands_ignores_surplus (data : List Band) (names : List String)
    (h : names.length ≤ data.length) :
    extract_bands data names = some (names.zip (data.take names.length))
    ∧ extract_bands data names = extract_bands (data.take names.length) names := by
  have h1 : extract_bands data names = some (names.zip (data.take names.length)) := by
    rw [extract_bands, extract_go_some data names 0 (by omega)]
    rfl
  have h2 : extract_bands (data.take names.length) names
      = some (names.zip ((data.take names.length).take names.length)) := by
    rw [extract_bands, extract_go_some (data.take names.length) names 0
      (by simp; omega)]
    rfl
  refine ⟨h1, ?_⟩
  rw [h1, h2, List.take_take, min_self]

/-- Concrete instantiation of `extract_bands_ignores_surplus`. -/
theorem extract_bands_ignores_surplus_witness :
    extract_bands [[[(5:ℚ)]], [[6]], [[7]], [[8]]] ["B2", "B3"]
      = some [("B2", [[5]]), ("B3", [[6]])] := by
  rw [(extract_bands_ignores_surplus [[[(5:ℚ)]], [[6]], [[7]], [[8]]]
    ["B2", "B3"] (by decide)).1]
  rfl

/-! ### The method runner (lines 131-135) -/

/-- Lines 131-135 of the script:
```
sim_bands = {}
for band_name in required_bands:
    sim_bands[band_name] = simulate_band(bands[band_name],
                                         params['factor'],
                                         params['sharpness'])
```
`bands[band_name]` raises `KeyError` (the spec's MissingBandError) when the
code is absent from the mapping; the failure is modelled as `none`. -/
def run_method (bands : List (String × Band)) :
    List String → ℕ → Bool → Option (List (String × Band))
  | [], _, _ => some []
  | code :: rest, factor, sharpness =>
    match bands.lookup code with
    | none => none
    | some b =>
      (run_method bands rest factor sharpness).map
        fun tail => (code, simulate_band b factor sharpness) :: tail

/-- C7: the runner fails (KeyError, the spec's MissingBandError) as soon as
some required band code is absent from the supplied mapping, producing no
band set; when every required code is present it returns exactly one
simulated band per required code, in order. -/
theorem run_method_spec (bands : List (String × Band)) (required : List String)
    (factor : ℕ) (sharpness : Bool) :
    ((∃ code ∈ required, bands.lookup code = none) →
      run_method bands required factor sharpness = none)
    ∧ ((∀ code ∈ required, (bands.lookup code).isSome) →
      run_method bands required factor sharpness =
        some (required.map fun code =>
          (code, simulate_band ((bands.lookup code).getD []) factor sharpness))) := by
  induction required with
  | nil =>
    refine ⟨?_, ?_⟩
    · rintro ⟨code, hmem, -⟩
      cases hmem
    · intro
      rfl
  | cons code rest ih =>
    cases hl : bands.lookup code with
    | none =>
      refine ⟨?_, ?_⟩
      · intro
        rw [run_method, hl]
      · intro hall
        have := hall code (List.mem_cons_self _ _)
        rw [hl] at this
        cases this
    | some b =>
      refine ⟨?_, ?_⟩
      · rintro ⟨code', hmem, hnone⟩
        rcases List.mem_cons.mp hmem with rfl | hmem'
        · rw [hl] at hnone; cases hnone
        · rw [run_method, hl, ih.1 ⟨code', hmem', hnone⟩]
          rfl
      · intro hall
        rw [run_method, hl,
          ih.2 (fun c hc => hall c (List.mem_cons_of_mem _ hc))]
        simp [hl]

/-- Concrete instantiation of `run_method_spec`: a missing required code
("B4") aborts the run; with the code present, one simulated band per
required code is returned. -/
theorem run_method_spec_witness :
    run_method [("B2", [[0, 1]])] ["B4"] 4 false = none
    ∧ run_method [("B2", [[0, 1]])] ["B2"] 1 false
        = some [("B2", simulate_band [[0, 1]] 1 false)] := by
  constructor
  · exact (run_method_spec [("B2", [[0, 1]])] ["B4"] 4 false).1 (by decide)
  · rw [(run_method_spec [("B2", [[0, 1]])] ["B2"] 1 false).2 (by decide)]
    rfl

/-! ### The comparison figure (lines 151-167) -/

/-- A rendered composition image. -/
abbrev Image : Type := List (List (List ℚ))

/-- The hardcoded axis count of `plt.subplots(1, 2)` on line 154. -/
def numAxes : ℕ := 2

/-- Lines 151-167 of the script: build the comparison figure for one
composition. `fig, axs = plt.subplots(1, 2)` creates a single row of exactly
`numAxes = 2` axes; `for i, method in enumerate(methods)` draws pair `i` on
`axs[i]` with the method name as title (`axs[i].set_title(method)`) and axes
off; `axs[i]` raises `IndexError` once `i ≥ 2`, modelled as `none`. Axis `i`
of the result holds `some (title, image)` when assigned and `none` when left
blank. -/
def render_panel (pairs : List (String × Image)) :
    Option (List (Option (String × Image))) :=
  if pairs.length ≤ numAxes then
    some ((List.range numAxes).map fun i => pairs[i]?)
  else none

/-- C8 counterexample: three methods plus the baseline (4 supplied pairs) do
NOT yield 4 panels — the hardcoded 1×2 subplot grid makes the renderer fail
(`IndexError` on `axs[2]`). -/
theorem render_panel_counterexample :
    render_panel
      [("brut", [[[0]]]), ("SEN2SR", [[[0]]]), ("M2", [[[0]]]), ("M3", [[[0]]])]
      = none := rfl

/-- C8 (amended): the renderer lays out a fixed single row of exactly
`numAxes = 2` panels. For at most 2 supplied (method, image) pairs, pair `i`
is shown on axis `i` — in supplied order, titled with its method name — and
any remaining axis is blank; supplying more than 2 pairs (e.g. three methods
plus baseline) fails instead of rendering. -/
theorem render_panel_amended (pairs : List (String × Image)) :
    (pairs.length ≤ numAxes → ∃ axes,
        render_panel pairs = some axes
        ∧ axes.length = numAxes
        ∧ (∀ i, i < pairs.length → axes.getD i none = pairs[i]?)
        ∧ (∀ i, pairs.length ≤ i → axes.getD i none = none))
    ∧ (numAxes < pairs.length → render_panel pairs = none) := by
  constructor
  · intro h
    refine ⟨(List.range numAxes).map fun i => pairs[i]?, ?_, by simp, ?_, ?_⟩
    · rw [render_panel, if_pos h]
    · intro i hi
      have hi2 : i < numAxes := by omega
      rw [List.getD_eq_getElem _ _ (by simpa using hi2)]
      simp [hi2]
    · intro i hi
      rcases Nat.lt_or_ge i numAxes with h2 | h2
      · rw [List.getD_eq_getElem _ _ (by simpa using h2)]
        simp only [List.getElem_map, List.getElem_range]
        exact List.getElem?_eq_none hi
      · exact List.getD_eq_default _ _ (by simpa using h2)
  · intro h
    rw [render_panel, if_neg (by omega)]

/-- Concrete instantiation of `render_panel_amended`: the script's two-pair
list renders both panels in order; a three-pair list already fails. -/
theorem render_panel_amended_witness :
    (render_panel [("brut", ([[[0]]] : Image)), ("SEN2SR", [[[1]]])]).isSome = true
    ∧ render_panel [("brut", ([[[0]]] : Image)), ("SEN2SR", [[[1]]]), ("M2", [[[2]]])]
      = none := by
  constructor
  · obtain ⟨axes, he, -, -, -⟩ :=
      (render_panel_amended [("brut", ([[[0]]] : Image)), ("SEN2SR", [[[1]]])]).1
        (by decide)
    rw [he]
    rfl
  · exact (render_panel_amended
      [("brut", ([[[0]]] : Image)), ("SEN2SR", [[[1]]]), ("M2", [[[2]]])]).2
      (by decide)

end Sentinel
